import Mathlib

/-!
Verification of the StableSR inference script
`scripts/sr_val_ddpm_text_T_vqganfin_oldcanvas.py`.

The script's pure numeric core is embedded shallowly:

* `calc_mean_std` / `adaptive_instance_normalization` — color correction on
  4D tensors, modelled as functions over `Fin`-indexed rationals, with the
  square root abstracted as a function parameter (the code uses a floating
  point square root; the properties proved below only need its positivity).
* `space_timesteps` — timestep respacing index selection.  Python's `round`
  (banker's rounding, round half to even) is modelled exactly on `ℚ`; the
  floating accumulator `cur_idx += frac_stride` is exact in `ℚ`.
  The Python function returns a `set`; we model the intermediate `all_steps`
  list as well as the final finite set.
* the respacing loop of `main` (lines 324–337) that rebuilds `new_betas`
  and `timestep_map` from `alphas_cumprod` and a selected index set.
-/

namespace StableSR

/-- Python's built-in `round` on an exact rational: round half to even. -/
def pyRound (q : ℚ) : ℤ :=
  if q - ⌊q⌋ < 1/2 then ⌊q⌋
  else if 1/2 < q - ⌊q⌋ then ⌊q⌋ + 1
  else if ⌊q⌋ % 2 = 0 then ⌊q⌋ else ⌊q⌋ + 1

/-- `frac_stride` of a section: `1` when `section_count <= 1`, else
`(size - 1) / (section_count - 1)` (exact rational division). -/
def fracStride (size count : ℕ) : ℚ :=
  if count ≤ 1 then 1 else ((size : ℚ) - 1) / ((count : ℚ) - 1)

/-- The inner loop of `space_timesteps`: starting from accumulator `cur`,
take `n` steps `start_idx + round(cur_idx)`, advancing `cur_idx` by
`frac_stride` each time (`taken_steps` in the source). -/
def takenSteps (start : ℤ) (fs : ℚ) : ℕ → ℚ → List ℤ
  | 0, _ => []
  | n + 1, cur => (start + pyRound cur) :: takenSteps start fs n (cur + fs)

/-- Size of section `i`: `size_per` plus one for the first `ex` sections. -/
def sectionSize (size_per ex i : ℕ) : ℕ :=
  size_per + (if i < ex then 1 else 0)

/-- The section loop of `space_timesteps`: walks the remaining section
counts, carrying the section index `i` and `start_idx`; raises (as
`Except.error`) when a section's size is smaller than its count. -/
def spaceSteps (size_per ex : ℕ) : List ℕ → ℕ → ℕ → Except String (List ℤ)
  | [], _, _ => .ok []
  | c :: rest, i, start =>
    let size := sectionSize size_per ex i
    if size < c then
      .error "cannot divide section"
    else
      (spaceSteps size_per ex rest (i + 1) (start + size)).map
        fun steps => takenSteps (start : ℤ) (fracStride size c) c 0 ++ steps

/-- The `all_steps` list accumulated by `space_timesteps` on a list of
section counts (everything before the final `set(...)`). -/
def space_timesteps_list (num_timesteps : ℕ) (section_counts : List ℕ) :
    Except String (List ℤ) :=
  spaceSteps (num_timesteps / section_counts.length)
    (num_timesteps % section_counts.length) section_counts 0 0

/-- `space_timesteps(num_timesteps, section_counts)` for a list of section
counts: the Python function returns `set(all_steps)`. -/
def space_timesteps (num_timesteps : ℕ) (section_counts : List ℕ) :
    Except String (Finset ℤ) :=
  (space_timesteps_list num_timesteps section_counts).map List.toFinset

/-- `len(range(0, n, s))` in Python, for stride `s ≥ 1`. -/
def pyRangeLen (n s : ℕ) : ℕ := (n + s - 1) / s

/-- `range(0, n, s)` in Python as a list, for stride `s ≥ 1`. -/
def pyRange (n s : ℕ) : List ℕ :=
  (List.range (pyRangeLen n s)).map (· * s)

/-- The `"ddimN"` branch of `space_timesteps`: try strides
`i = 1, …, num_timesteps - 1` in order and return `set(range(0,
num_timesteps, i))` for the first one whose length is `desired`;
raise `ValueError` if none matches. -/
def ddim_timesteps (num_timesteps desired : ℕ) : Except String (Finset ℕ) :=
  match (List.range' 1 (num_timesteps - 1)).find?
      (fun s => pyRangeLen num_timesteps s == desired) with
  | some s => .ok (pyRange num_timesteps s).toFinset
  | none => .error "cannot create steps with an integer stride"

/-- The respacing loop of `main`: walk `alphas_cumprod` with index `i` and
state `last_alpha_cumprod`; at each selected index append
`1 - alpha_cumprod / last_alpha_cumprod` to `new_betas`, record `i` in
`timestep_map`, and update the state. -/
def respaceBetas (use : ℕ → Bool) : List ℚ → ℕ → ℚ → List ℚ × List ℕ
  | [], _, _ => ([], [])
  | a :: rest, i, last =>
    if use i then
      let p := respaceBetas use rest (i + 1) a
      ((1 - a / last) :: p.1, i :: p.2)
    else
      respaceBetas use rest (i + 1) last

/-- `new_betas` produced by the respacing loop (initial state
`last_alpha_cumprod = 1.0`). -/
def new_betas (alphas : List ℚ) (use : ℕ → Bool) : List ℚ :=
  (respaceBetas use alphas 0 1).1

/-- `timestep_map` produced by the respacing loop. -/
def timestep_map (alphas : List ℚ) (use : ℕ → Bool) : List ℕ :=
  (respaceBetas use alphas 0 1).2

/-! ### Color correction -/

/-- A 4D tensor of shape `(b, c, h, w)` with rational entries. -/
def Tensor4 (b c h w : ℕ) : Type :=
  Fin b → Fin c → Fin h → Fin w → ℚ

/-- Per-channel mean over the spatial dimensions
(`feat.reshape(b, c, -1).mean(dim=2)`). -/
def spatialMean {b c h w : ℕ} (x : Tensor4 b c h w) (i : Fin b) (j : Fin c) : ℚ :=
  (∑ p : Fin h, ∑ q : Fin w, x i j p q) / (h * w : ℕ)

/-- Per-channel unbiased variance over the spatial dimensions
(`feat.reshape(b, c, -1).var(dim=2)`, PyTorch's default Bessel
correction: divide by `n - 1`).  Faithful for `2 ≤ h * w`: at a single
spatial element the correction divides zero by zero, which is `0` here
but NaN in PyTorch, so the color-correction theorems guard with
`2 ≤ h * w`. -/
def spatialVar {b c h w : ℕ} (x : Tensor4 b c h w) (i : Fin b) (j : Fin c) : ℚ :=
  (∑ p : Fin h, ∑ q : Fin w, (x i j p q - spatialMean x i j) ^ 2)
    / ((h * w : ℕ) - 1 : ℚ)

/-- `calc_mean_std(feat, eps)`: per-channel mean, and standard deviation
computed as `sqrt(var + eps)`.  The floating square root is abstracted as
the parameter `sq`. -/
def calc_mean_std {b c h w : ℕ} (sq : ℚ → ℚ) (eps : ℚ) (x : Tensor4 b c h w) :
    (Fin b → Fin c → ℚ) × (Fin b → Fin c → ℚ) :=
  (fun i j => spatialMean x i j, fun i j => sq (spatialVar x i j + eps))

/-- `adaptive_instance_normalization(content_feat, style_feat)`:
normalize `content_feat` by its own per-channel mean/std (stats from
`calc_mean_std` with `eps = 1e-5`), then rescale by `style_feat`'s std and
shift by its mean.  The two inputs must share batch and channel dimensions
but may have different spatial sizes. -/
def adaptive_instance_normalization {b c h w h' w' : ℕ} (sq : ℚ → ℚ)
    (content : Tensor4 b c h w) (style : Tensor4 b c h' w') : Tensor4 b c h w :=
  let styleStats := calc_mean_std sq (1/100000) style
  let contentStats := calc_mean_std sq (1/100000) content
  fun i j p q =>
    (content i j p q - contentStats.1 i j) / contentStats.2 i j
      * styleStats.2 i j + styleStats.1 i j

/-! ### Properties of `pyRound` -/

theorem pyRound_le (q : ℚ) : (pyRound q : ℚ) ≤ q + 1/2 := by
  have h1 := Int.floor_le q
  have h2 := Int.lt_floor_add_one q
  unfold pyRound
  split
  · linarith
  · split
    · push_cast
      linarith
    · split <;> push_cast <;> linarith

theorem le_pyRound (q : ℚ) : q - 1/2 ≤ (pyRound q : ℚ) := by
  have h1 := Int.floor_le q
  have h2 := Int.lt_floor_add_one q
  unfold pyRound
  split
  · linarith
  · split
    · push_cast
      linarith
    · split <;> push_cast <;> linarith

theorem pyRound_intCast (n : ℤ) : pyRound (n : ℚ) = n := by
  unfold pyRound
  rw [Int.floor_intCast]
  norm_num

theorem pyRound_natCast (n : ℕ) : pyRound (n : ℚ) = n := by
  have := pyRound_intCast (n : ℤ)
  push_cast at this ⊢
  exact this

theorem pyRound_nonneg {q : ℚ} (h : 0 ≤ q) : 0 ≤ pyRound q := by
  have h1 := le_pyRound q
  by_contra hneg
  push_neg at hneg
  have h2 : pyRound q ≤ -1 := by omega
  have h3 : (pyRound q : ℚ) ≤ -1 := by exact_mod_cast h2
  linarith

theorem pyRound_le_int {q : ℚ} {m : ℤ} (h : q ≤ (m : ℚ)) : pyRound q ≤ m := by
  have := pyRound_le q
  have h2 : (pyRound q : ℚ) < (m : ℚ) + 1 := by linarith
  exact Int.lt_add_one_iff.mp (by exact_mod_cast h2)

theorem pyRound_lt_pyRound {x y : ℚ} (h : 1 < y - x) : pyRound x < pyRound y := by
  have h1 := pyRound_le x
  have h2 := le_pyRound y
  have : (pyRound x : ℚ) < (pyRound y : ℚ) := by linarith
  exact_mod_cast this

/-! ### The `taken_steps` inner loop in closed form -/

/-- The `j`-th index selected in a section, as a function of `j`
(the accumulator `cur_idx` equals `j * frac_stride` exactly). -/
def sectionSel (start size count : ℕ) : List ℤ :=
  (List.range count).map fun j : ℕ => (start : ℤ) + pyRound ((j : ℚ) * fracStride size count)

theorem takenSteps_eq_map (start : ℤ) (fs : ℚ) :
    ∀ (n : ℕ) (cur : ℚ),
      takenSteps start fs n cur
        = (List.range n).map fun j : ℕ => start + pyRound (cur + (j : ℚ) * fs) := by
  intro n
  induction n with
  | zero => intro cur; rfl
  | succ m ih =>
    intro cur
    rw [List.range_succ_eq_map, List.map_cons, List.map_map]
    show takenSteps start fs (m + 1) cur = _
    rw [takenSteps, ih (cur + fs)]
    congr 1
    · norm_num
    · apply List.map_congr_left
      intro j _
      have : cur + fs + (j : ℚ) * fs = cur + ((j : ℚ) + 1) * fs := by ring
      rw [Function.comp_apply, this]
      norm_num

theorem takenSteps_eq_sectionSel (start size count : ℕ) :
    takenSteps (start : ℤ) (fracStride size count) count 0 = sectionSel start size count := by
  rw [takenSteps_eq_map, sectionSel]
  apply List.map_congr_left
  intro j _
  rw [zero_add]

/-! ### Per-section selection: bounds and strict monotonicity -/

theorem one_le_fracStride {size count : ℕ} (hfit : count ≤ size) :
    1 ≤ fracStride size count := by
  unfold fracStride
  split
  · exact le_refl 1
  · rename_i hc
    push_neg at hc
    have h2 : (2 : ℕ) ≤ count := hc
    have hcq : (0 : ℚ) < (count : ℚ) - 1 := by
      have : (2 : ℚ) ≤ (count : ℚ) := by exact_mod_cast h2
      linarith
    rw [le_div_iff₀ hcq]
    have : (count : ℚ) ≤ (size : ℚ) := by exact_mod_cast hfit
    linarith

theorem fracStride_self (N : ℕ) : fracStride N N = 1 := by
  unfold fracStride
  split
  · rfl
  · rename_i h
    push_neg at h
    apply div_self
    intro hcon
    have h2 : (2 : ℚ) ≤ (N : ℚ) := by exact_mod_cast h
    linarith

theorem fracStride_mul_top {size count : ℕ} (hc : 2 ≤ count) :
    ((count : ℚ) - 1) * fracStride size count = (size : ℚ) - 1 := by
  unfold fracStride
  split
  · omega
  · rw [mul_div_cancel₀]
    have : (2 : ℚ) ≤ (count : ℚ) := by exact_mod_cast hc
    intro h
    linarith [this]

theorem sectionSel_length (start size count : ℕ) :
    (sectionSel start size count).length = count := by
  simp [sectionSel]

theorem sectionSel_bounds {start size count : ℕ} (hpos : 1 ≤ count) (hfit : count ≤ size) :
    ∀ e ∈ sectionSel start size count, (start : ℤ) ≤ e ∧ e < (start : ℤ) + size := by
  intro e he
  simp only [sectionSel, List.mem_map, List.mem_range] at he
  obtain ⟨j, hj, rfl⟩ := he
  have hfs := one_le_fracStride hfit
  have hjq : (0 : ℚ) ≤ (j : ℚ) := by positivity
  constructor
  · have h0 : 0 ≤ pyRound ((j : ℚ) * fracStride size count) := by
      apply pyRound_nonneg
      positivity
  -- the selected offset is nonnegative
    omega
  · have hub : (j : ℚ) * fracStride size count ≤ (size : ℚ) - 1 := by
      rcases Nat.lt_or_ge count 2 with hc | hc
      · have hj0 : j = 0 := by omega
        subst hj0
        have : (1 : ℚ) ≤ (size : ℚ) := by exact_mod_cast hfit.trans' hpos
        simp
        linarith
      · have hjc : (j : ℚ) ≤ (count : ℚ) - 1 := by
          have : (j : ℚ) + 1 ≤ (count : ℚ) := by exact_mod_cast hj
          linarith
        calc (j : ℚ) * fracStride size count
            ≤ ((count : ℚ) - 1) * fracStride size count := by
              apply mul_le_mul_of_nonneg_right hjc (by linarith)
          _ = (size : ℚ) - 1 := fracStride_mul_top hc
    have hle : pyRound ((j : ℚ) * fracStride size count) ≤ (size : ℤ) - 1 := by
      apply pyRound_le_int
      push_cast
      linarith
    omega

theorem sectionSel_pairwise {start size count : ℕ} (hfit : count ≤ size) :
    (sectionSel start size count).Pairwise (· < ·) := by
  unfold sectionSel
  apply List.Pairwise.map _ _ (List.pairwise_lt_range count)
  intro a b hab
  have hfs := one_le_fracStride hfit
  have key : pyRound ((a : ℚ) * fracStride size count)
      < pyRound ((b : ℚ) * fracStride size count) := by
    rcases eq_or_lt_of_le hfs with hfs1 | hfs1
    · rw [← hfs1]
      simp only [mul_one]
      rw [pyRound_natCast, pyRound_natCast]
      exact_mod_cast hab
    · apply pyRound_lt_pyRound
      have hba : (1 : ℚ) ≤ (b : ℚ) - (a : ℚ) := by
        have : (a : ℚ) + 1 ≤ (b : ℚ) := by exact_mod_cast hab
        linarith
      have : (b : ℚ) * fracStride size count - (a : ℚ) * fracStride size count
          = ((b : ℚ) - (a : ℚ)) * fracStride size count := by ring
      rw [this]
      calc (1 : ℚ) < fracStride size count := hfs1
        _ = 1 * fracStride size count := by ring
        _ ≤ ((b : ℚ) - (a : ℚ)) * fracStride size count := by
            apply mul_le_mul_of_nonneg_right hba (by linarith)
  omega

/-! ### The section loop in closed form -/

/-- The concatenation of the per-section selections, carrying the section
index and the running `start_idx` exactly as `spaceSteps` does. -/
def specFrom (size_per ex : ℕ) : List ℕ → ℕ → ℕ → List ℤ
  | [], _, _ => []
  | c :: rest, i, st =>
    sectionSel st (sectionSize size_per ex i) c
      ++ specFrom size_per ex rest (i + 1) (st + sectionSize size_per ex i)

/-- Total size of `n` consecutive sections starting at section `i0`. -/
def totalSize (size_per ex i0 n : ℕ) : ℕ :=
  ∑ t ∈ Finset.range n, sectionSize size_per ex (i0 + t)

theorem totalSize_succ (size_per ex i0 n : ℕ) :
    totalSize size_per ex i0 (n + 1)
      = sectionSize size_per ex i0 + totalSize size_per ex (i0 + 1) n := by
  unfold totalSize
  rw [Finset.sum_range_succ']
  simp only [Nat.add_zero]
  rw [Nat.add_comm]
  congr 1
  apply Finset.sum_congr rfl
  intro t _
  congr 1
  omega

theorem spaceSteps_eq_ok (size_per ex : ℕ) :
    ∀ (cl : List ℕ) (i0 st : ℕ),
      (∀ t < cl.length, cl.getD t 0 ≤ sectionSize size_per ex (i0 + t)) →
      spaceSteps size_per ex cl i0 st = .ok (specFrom size_per ex cl i0 st) := by
  intro cl
  induction cl with
  | nil => intro i0 st _; rfl
  | cons c rest ih =>
    intro i0 st hfit
    have hc : c ≤ sectionSize size_per ex i0 := by
      have h0 := hfit 0 (by simp)
      simpa using h0
    have h' : ∀ t < rest.length, rest.getD t 0 ≤ sectionSize size_per ex (i0 + 1 + t) := by
      intro t ht
      have h1 := hfit (t + 1) (by simpa using Nat.succ_lt_succ ht)
      simp only [List.getD_cons_succ] at h1
      have harr : i0 + 1 + t = i0 + (t + 1) := by omega
      rw [harr]
      exact h1
    rw [spaceSteps, specFrom]
    simp only [if_neg (Nat.not_lt.mpr hc)]
    rw [ih (i0 + 1) (st + sectionSize size_per ex i0) h']
    simp only [Except.map, takenSteps_eq_sectionSel]

theorem spaceSteps_error (size_per ex : ℕ) :
    ∀ (cl : List ℕ) (i0 st : ℕ),
      (∃ t < cl.length, sectionSize size_per ex (i0 + t) < cl.getD t 0) →
      ∃ e, spaceSteps size_per ex cl i0 st = .error e := by
  intro cl
  induction cl with
  | nil => intro i0 st h; obtain ⟨t, ht, _⟩ := h; simp at ht
  | cons c rest ih =>
    intro i0 st h
    rw [spaceSteps]
    by_cases hc : sectionSize size_per ex i0 < c
    · simp only [if_pos hc]
      exact ⟨_, rfl⟩
    · simp only [if_neg hc]
      obtain ⟨t, ht, hbad⟩ := h
      have ht0 : t ≠ 0 := by
        intro h0
        subst h0
        simp only [List.getD_cons_zero, Nat.add_zero] at hbad
        omega
      obtain ⟨t', rfl⟩ := Nat.exists_eq_succ_of_ne_zero ht0
      have hrec : ∃ e, spaceSteps size_per ex rest (i0 + 1) (st + sectionSize size_per ex i0)
          = .error e := by
        apply ih
        refine ⟨t', by simpa using Nat.lt_of_succ_lt_succ ht, ?_⟩
        simp only [List.getD_cons_succ] at hbad
        have harr : i0 + 1 + t' = i0 + (t' + 1) := by omega
        rw [harr]
        exact hbad
      obtain ⟨e, he⟩ := hrec
      rw [he]
      exact ⟨e, rfl⟩

theorem specFrom_length (size_per ex : ℕ) :
    ∀ (cl : List ℕ) (i0 st : ℕ), (specFrom size_per ex cl i0 st).length = cl.sum := by
  intro cl
  induction cl with
  | nil => intro i0 st; rfl
  | cons c rest ih =>
    intro i0 st
    rw [specFrom, List.length_append, sectionSel_length, ih, List.sum_cons]

theorem specFrom_bounds (size_per ex : ℕ) :
    ∀ (cl : List ℕ) (i0 st : ℕ),
      (∀ t < cl.length, 1 ≤ cl.getD t 0 ∧ cl.getD t 0 ≤ sectionSize size_per ex (i0 + t)) →
      ∀ e ∈ specFrom size_per ex cl i0 st,
        (st : ℤ) ≤ e ∧ e < (st : ℤ) + totalSize size_per ex i0 cl.length := by
  intro cl
  induction cl with
  | nil => intro i0 st _ e he; simp [specFrom] at he
  | cons c rest ih =>
    intro i0 st hyp e he
    have h0 := hyp 0 (by simp)
    simp only [List.getD_cons_zero, Nat.add_zero] at h0
    have hyp' : ∀ t < rest.length,
        1 ≤ rest.getD t 0 ∧ rest.getD t 0 ≤ sectionSize size_per ex (i0 + 1 + t) := by
      intro t ht
      have h1 := hyp (t + 1) (by simpa using Nat.succ_lt_succ ht)
      simp only [List.getD_cons_succ] at h1
      have harr : i0 + 1 + t = i0 + (t + 1) := by omega
      rw [harr]
      exact h1
    rw [specFrom, List.mem_append] at he
    rw [List.length_cons, totalSize_succ]
    rcases he with he | he
    · have hb := sectionSel_bounds h0.1 h0.2 e he
      have : (0 : ℤ) ≤ totalSize size_per ex (i0 + 1) rest.length := by positivity
      push_cast at hb ⊢
      constructor
      · linarith [hb.1]
      · linarith [hb.2]
    · have hb := ih (i0 + 1) (st + sectionSize size_per ex i0) hyp' e he
      push_cast at hb ⊢
      constructor
      · linarith [hb.1]
      · linarith [hb.2]

theorem specFrom_pairwise (size_per ex : ℕ) :
    ∀ (cl : List ℕ) (i0 st : ℕ),
      (∀ t < cl.length, 1 ≤ cl.getD t 0 ∧ cl.getD t 0 ≤ sectionSize size_per ex (i0 + t)) →
      (specFrom size_per ex cl i0 st).Pairwise (· < ·) := by
  intro cl
  induction cl with
  | nil => intro i0 st _; exact List.Pairwise.nil
  | cons c rest ih =>
    intro i0 st hyp
    have h0 := hyp 0 (by simp)
    simp only [List.getD_cons_zero, Nat.add_zero] at h0
    have hyp' : ∀ t < rest.length,
        1 ≤ rest.getD t 0 ∧ rest.getD t 0 ≤ sectionSize size_per ex (i0 + 1 + t) := by
      intro t ht
      have h1 := hyp (t + 1) (by simpa using Nat.succ_lt_succ ht)
      simp only [List.getD_cons_succ] at h1
      have harr : i0 + 1 + t = i0 + (t + 1) := by omega
      rw [harr]
      exact h1
    rw [specFrom, List.pairwise_append]
    refine ⟨sectionSel_pairwise h0.2, ih (i0 + 1) _ hyp', ?_⟩
    intro a ha b hb
    have hba := sectionSel_bounds h0.1 h0.2 a ha
    have hbb := specFrom_bounds size_per ex rest (i0 + 1) _ hyp' b hb
    push_cast at hba hbb
    linarith [hba.2, hbb.1]

theorem specFrom_filter (size_per ex : ℕ) :
    ∀ (cl : List ℕ) (i0 st : ℕ),
      (∀ t < cl.length, 1 ≤ cl.getD t 0 ∧ cl.getD t 0 ≤ sectionSize size_per ex (i0 + t)) →
      ∀ t < cl.length,
        ((specFrom size_per ex cl i0 st).filter fun e =>
            decide (((st + totalSize size_per ex i0 t : ℕ) : ℤ) ≤ e) &&
              decide (e < ((st + totalSize size_per ex i0 t : ℕ) : ℤ)
                + sectionSize size_per ex (i0 + t))).length
          = cl.getD t 0 := by
  intro cl
  induction cl with
  | nil => intro i0 st _ t ht; simp at ht
  | cons c rest ih =>
    intro i0 st hyp t ht
    have h0 := hyp 0 (by simp)
    simp only [List.getD_cons_zero, Nat.add_zero] at h0
    have hyp' : ∀ u < rest.length,
        1 ≤ rest.getD u 0 ∧ rest.getD u 0 ≤ sectionSize size_per ex (i0 + 1 + u) := by
      intro u hu
      have h1 := hyp (u + 1) (by simpa using Nat.succ_lt_succ hu)
      simp only [List.getD_cons_succ] at h1
      have harr : i0 + 1 + u = i0 + (u + 1) := by omega
      rw [harr]
      exact h1
    rw [specFrom, List.filter_append, List.length_append]
    cases t with
    | zero =>
      have hhead : (sectionSel st (sectionSize size_per ex i0) c).filter (fun e =>
          decide (((st + totalSize size_per ex i0 0 : ℕ) : ℤ) ≤ e) &&
            decide (e < ((st + totalSize size_per ex i0 0 : ℕ) : ℤ)
              + sectionSize size_per ex (i0 + 0)))
          = sectionSel st (sectionSize size_per ex i0) c := by
        rw [List.filter_eq_self]
        intro e he
        have hb := sectionSel_bounds h0.1 h0.2 e he
        simp only [totalSize, Finset.range_zero, Finset.sum_empty, Nat.add_zero,
          Bool.and_eq_true, decide_eq_true_eq]
        push_cast at hb
        exact ⟨hb.1, hb.2⟩
      have htail : (specFrom size_per ex rest (i0 + 1) (st + sectionSize size_per ex i0)).filter
          (fun e => decide (((st + totalSize size_per ex i0 0 : ℕ) : ℤ) ≤ e) &&
            decide (e < ((st + totalSize size_per ex i0 0 : ℕ) : ℤ)
              + sectionSize size_per ex (i0 + 0))) = [] := by
        rw [List.filter_eq_nil_iff]
        intro e he
        have hb := specFrom_bounds size_per ex rest (i0 + 1) _ hyp' e he
        simp only [totalSize, Finset.range_zero, Finset.sum_empty, Nat.add_zero,
          Bool.and_eq_true, decide_eq_true_eq, not_and, not_lt]
        intro _
        push_cast at hb ⊢
        linarith [hb.1]
      rw [hhead, htail, sectionSel_length]
      simp
    | succ u =>
      have hu : u < rest.length := by simpa using Nat.lt_of_succ_lt_succ ht
      have hstart : st + totalSize size_per ex i0 (u + 1)
          = (st + sectionSize size_per ex i0) + totalSize size_per ex (i0 + 1) u := by
        rw [totalSize_succ]
        omega
      have hhead : (sectionSel st (sectionSize size_per ex i0) c).filter (fun e =>
          decide (((st + totalSize size_per ex i0 (u + 1) : ℕ) : ℤ) ≤ e) &&
            decide (e < ((st + totalSize size_per ex i0 (u + 1) : ℕ) : ℤ)
              + sectionSize size_per ex (i0 + (u + 1)))) = [] := by
        rw [List.filter_eq_nil_iff]
        intro e he
        have hb := sectionSel_bounds h0.1 h0.2 e he
        simp only [Bool.and_eq_true, decide_eq_true_eq, not_and, not_lt]
        intro hle
        rw [hstart] at hle
        have hts : (0 : ℤ) ≤ totalSize size_per ex (i0 + 1) u := by positivity
        push_cast at hb hle ⊢
        linarith [hb.2]
      have harr2 : i0 + (u + 1) = i0 + 1 + u := by omega
      have htail := ih (i0 + 1) (st + sectionSize size_per ex i0) hyp' u hu
      rw [hhead, List.length_nil, Nat.zero_add, List.getD_cons_succ, harr2, hstart]
      exact htail

theorem totalSize_from_zero (size_per ex : ℕ) :
    ∀ i : ℕ, totalSize size_per ex 0 i = i * size_per + min i ex := by
  intro i
  induction i with
  | zero => simp [totalSize]
  | succ u ih =>
    unfold totalSize at ih ⊢
    rw [Finset.sum_range_succ, ih, Nat.succ_mul]
    unfold sectionSize
    split <;> rename_i h <;> omega

theorem totalSize_all (N k : ℕ) (hk : 1 ≤ k) :
    totalSize (N / k) (N % k) 0 k = N := by
  rw [totalSize_from_zero]
  have h1 : N % k < k := Nat.mod_lt N hk
  have h2 := Nat.div_add_mod N k
  omega

/-- Selection inside one section, as the specification words it: the start
index alone when the count is `1`, otherwise
`start + round(j * (size - 1) / (count - 1))` for `j = 0 .. count - 1`. -/
def specSectionSel (start size count : ℕ) : List ℤ :=
  if count = 1 then [(start : ℤ)]
  else (List.range count).map fun j : ℕ =>
    (start : ℤ) + pyRound ((j : ℚ) * (((size : ℚ) - 1) / ((count : ℚ) - 1)))

/-- Start index of section `i`, as the specification words it:
the first `N % k` sections get `N / k + 1` elements, the rest `N / k`. -/
def specStart (N k i : ℕ) : ℕ := i * (N / k) + min i (N % k)

/-- Modelled from the spec: the full selection, sections concatenated in
order, section `i` having size `N / k` plus one extra for `i < N % k`. -/
def specSelect (N : ℕ) (counts : List ℕ) : List ℤ :=
  (List.range counts.length).flatMap fun i =>
    specSectionSel (specStart N counts.length i)
      (N / counts.length + if i < N % counts.length then 1 else 0) (counts.getD i 0)

theorem specSectionSel_eq (start size count : ℕ) :
    specSectionSel start size count = sectionSel start size count := by
  unfold specSectionSel sectionSel fracStride
  by_cases h1 : count = 1
  · subst h1
    norm_num
    simp [List.range_succ, pyRound_natCast]
  · rw [if_neg h1]
    rcases Nat.lt_or_ge count 2 with h2 | h2
    · have h0 : count = 0 := by omega
      subst h0
      simp
    · rw [if_neg (by omega)]

theorem specFrom_eq_flatMap (size_per ex : ℕ) :
    ∀ (cl : List ℕ) (i0 st : ℕ),
      specFrom size_per ex cl i0 st
        = (List.range cl.length).flatMap fun t =>
            sectionSel (st + totalSize size_per ex i0 t)
              (sectionSize size_per ex (i0 + t)) (cl.getD t 0) := by
  intro cl
  induction cl with
  | nil => intro i0 st; rfl
  | cons c rest ih =>
    intro i0 st
    rw [specFrom, List.length_cons, List.range_succ_eq_map, List.flatMap_cons,
      List.flatMap_map, ih (i0 + 1) (st + sectionSize size_per ex i0)]
    refine congrArg₂ (fun x y : List ℤ => x ++ y) ?_ ?_
    · have h0 : totalSize size_per ex i0 0 = 0 := by simp [totalSize]
      rw [h0, Nat.add_zero, Nat.add_zero]
      rfl
    · apply List.flatMap_congr
      intro t _
      simp only [Function.comp_apply, Nat.succ_eq_add_one, List.getD_cons_succ, totalSize_succ]
      have h1 : st + (sectionSize size_per ex i0 + totalSize size_per ex (i0 + 1) t)
          = st + sectionSize size_per ex i0 + totalSize size_per ex (i0 + 1) t := by omega
      have h2 : i0 + (t + 1) = i0 + 1 + t := by omega
      rw [h1, h2]

/-! ### The respacing loop of `main` -/

theorem respaceBetas_map_ge (use : ℕ → Bool) :
    ∀ (l : List ℚ) (i0 : ℕ) (last : ℚ),
      ∀ t ∈ (respaceBetas use l i0 last).2, i0 ≤ t := by
  intro l
  induction l with
  | nil => intro i0 last t ht; simp [respaceBetas] at ht
  | cons a rest ih =>
    intro i0 last t ht
    cases huse : use i0 with
    | true =>
      simp only [respaceBetas, huse, if_true] at ht
      rcases List.mem_cons.mp ht with rfl | ht'
      · exact le_refl t
      · exact Nat.le_of_succ_le (ih (i0 + 1) a t ht')
    | false =>
      simp only [respaceBetas, huse, Bool.false_eq_true, if_false] at ht
      exact Nat.le_of_succ_le (ih (i0 + 1) last t ht)

theorem respaceBetas_prod (use : ℕ → Bool) :
    ∀ (l : List ℚ) (i0 : ℕ) (last : ℚ), (∀ a ∈ l, a ≠ 0) → last ≠ 0 →
      ∀ k, k < (respaceBetas use l i0 last).2.length →
        last * (((respaceBetas use l i0 last).1.take (k + 1)).map (fun b => 1 - b)).prod
          = l.getD ((respaceBetas use l i0 last).2.getD k 0 - i0) 0 := by
  intro l
  induction l with
  | nil => intro i0 last _ _ k hk; simp [respaceBetas] at hk
  | cons a rest ih =>
    intro i0 last hne hlast k hk
    have ha : a ≠ 0 := hne a (by simp)
    have hne' : ∀ x ∈ rest, x ≠ 0 := fun x hx => hne x (by simp [hx])
    cases huse : use i0 with
    | false =>
      simp only [respaceBetas, huse, Bool.false_eq_true, if_false] at hk ⊢
      have hmem : (respaceBetas use rest (i0 + 1) last).2.getD k 0
          ∈ (respaceBetas use rest (i0 + 1) last).2 := by
        rw [List.getD_eq_getElem _ _ hk]
        exact List.getElem_mem hk
      have hge := respaceBetas_map_ge use rest (i0 + 1) last _ hmem
      have hsh : (respaceBetas use rest (i0 + 1) last).2.getD k 0 - i0
          = ((respaceBetas use rest (i0 + 1) last).2.getD k 0 - (i0 + 1)) + 1 := by omega
      rw [hsh, List.getD_cons_succ]
      exact ih (i0 + 1) last hne' hlast k hk
    | true =>
      simp only [respaceBetas, huse, if_true] at hk ⊢
      have hc2 : (1 : ℚ) - (1 - a / last) = a / last := by ring
      have hc3 : last * (a / last) = a := by
        rw [mul_comm]
        exact div_mul_cancel₀ a hlast
      cases k with
      | zero =>
        simp only [List.take_succ_cons, List.take_zero, List.map_cons, List.map_nil,
          List.prod_cons, List.prod_nil, List.getD_cons_zero, Nat.sub_self]
        rw [hc2, mul_one, hc3]
      | succ u =>
        have hu : u < (respaceBetas use rest (i0 + 1) a).2.length := by
          simpa using Nat.lt_of_succ_lt_succ hk
        have hmem : (respaceBetas use rest (i0 + 1) a).2.getD u 0
            ∈ (respaceBetas use rest (i0 + 1) a).2 := by
          rw [List.getD_eq_getElem _ _ hu]
          exact List.getElem_mem hu
        have hge := respaceBetas_map_ge use rest (i0 + 1) a _ hmem
        have hih := ih (i0 + 1) a hne' ha u hu
        simp only [List.getD_cons_succ, List.take_succ_cons, List.map_cons, List.prod_cons]
        rw [hc2, ← mul_assoc, hc3, hih]
        have hsh : (respaceBetas use rest (i0 + 1) a).2.getD u 0 - i0
            = ((respaceBetas use rest (i0 + 1) a).2.getD u 0 - (i0 + 1)) + 1 := by omega
        rw [hsh, List.getD_cons_succ]

theorem respaceBetas_all (use : ℕ → Bool) :
    ∀ (l : List ℚ) (i0 : ℕ) (last : ℚ),
      (∀ j, i0 ≤ j → j < i0 + l.length → use j = true) →
      (respaceBetas use l i0 last).2 = List.range' i0 l.length
      ∧ ∀ t < l.length, (respaceBetas use l i0 last).1.getD t 0
          = 1 - l.getD t 0 / (if t = 0 then last else l.getD (t - 1) 0) := by
  intro l
  induction l with
  | nil =>
    intro i0 last _
    exact ⟨rfl, by intro t ht; simp at ht⟩
  | cons a rest ih =>
    intro i0 last hall
    have huse : use i0 = true := hall i0 (le_refl i0) (by simp)
    have hall' : ∀ j, i0 + 1 ≤ j → j < i0 + 1 + rest.length → use j = true := by
      intro j h1 h2
      exact hall j (by omega) (by simp only [List.length_cons]; omega)
    obtain ⟨ihts, ihbs⟩ := ih (i0 + 1) a hall'
    constructor
    · simp only [respaceBetas, huse, if_true, List.length_cons, List.range'_succ]
      rw [ihts]
    · intro t ht
      simp only [respaceBetas, huse, if_true]
      cases t with
      | zero => simp
      | succ u =>
        have hu : u < rest.length := by simpa using Nat.lt_of_succ_lt_succ ht
        have hb := ihbs u hu
        simp only [List.getD_cons_succ, Nat.add_sub_cancel]
        rw [hb]
        cases u with
        | zero => simp
        | succ v => simp

/-! ### The fixed-stride (`"ddimN"`) branch -/

theorem find?_range'_min {p : ℕ → Bool} :
    ∀ (n a s : ℕ), (List.range' a n).find? p = some s →
      ∀ t, a ≤ t → t < s → p t = false := by
  intro n
  induction n with
  | zero => intro a s hfind; simp at hfind
  | succ m ih =>
    intro a s hfind t hat hts
    rw [List.range'_succ] at hfind
    cases hpa : p a with
    | true =>
      rw [List.find?_cons_of_pos _ hpa] at hfind
      have : a = s := by injection hfind
      omega
    | false =>
      rw [List.find?_cons_of_neg _ (by simp [hpa])] at hfind
      rcases Nat.eq_or_lt_of_le hat with rfl | hlt
      · exact hpa
      · exact ih (a + 1) s hfind t hlt hts

theorem lt_pyRangeLen {n s j : ℕ} (hs : 1 ≤ s) : j < pyRangeLen n s ↔ j * s < n := by
  unfold pyRangeLen
  rw [Nat.lt_iff_add_one_le, Nat.le_div_iff_mul_le hs, Nat.add_mul, Nat.one_mul]
  omega

theorem mem_pyRange {n s m : ℕ} (hs : 1 ≤ s) :
    m ∈ pyRange n s ↔ ∃ j, m = j * s ∧ m < n := by
  unfold pyRange
  simp only [List.mem_map, List.mem_range]
  constructor
  · rintro ⟨j, hj, rfl⟩
    exact ⟨j, rfl, (lt_pyRangeLen hs).mp hj⟩
  · rintro ⟨j, rfl, hm⟩
    exact ⟨j, (lt_pyRangeLen hs).mpr hm, rfl⟩

theorem ddim_find_some {N d s : ℕ}
    (hf : (List.range' 1 (N - 1)).find? (fun r => pyRangeLen N r == d) = some s) :
    1 ≤ s ∧ s < N ∧ pyRangeLen N s = d
      ∧ (∀ r, 1 ≤ r → r < s → pyRangeLen N r ≠ d)
      ∧ ddim_timesteps N d = .ok (pyRange N s).toFinset := by
  have hps : pyRangeLen N s = d := by
    have h1 := List.find?_some hf
    simpa using h1
  have hmem := List.mem_of_find?_eq_some hf
  rw [List.mem_range'] at hmem
  obtain ⟨u, hu, hs⟩ := hmem
  refine ⟨by omega, by omega, hps, ?_, ?_⟩
  · intro r hr1 hrs hrd
    have h2 := find?_range'_min (N - 1) 1 s hf r hr1 hrs
    simp [hrd] at h2
  · rw [ddim_timesteps, hf]

/-! ### Color-correction groundwork -/

theorem spatialVar_nonneg {b c hh ww : ℕ} (x : Tensor4 b c hh ww) (i : Fin b) (j : Fin c) :
    0 ≤ spatialVar x i j := by
  rcases Nat.eq_zero_or_pos (hh * ww) with h0 | hpos
  · rcases Nat.mul_eq_zero.mp h0 with h1 | h1
    · subst h1
      simp [spatialVar]
    · subst h1
      simp [spatialVar]
  · apply div_nonneg
    · apply Finset.sum_nonneg
      intro p _
      apply Finset.sum_nonneg
      intro q _
      positivity
    · have h1 : (1 : ℚ) ≤ ((hh * ww : ℕ) : ℚ) := by exact_mod_cast hpos
      linarith

theorem spatialVar_add_eps_pos {b c hh ww : ℕ} (x : Tensor4 b c hh ww)
    (i : Fin b) (j : Fin c) {eps : ℚ} (heps : 0 < eps) :
    0 < spatialVar x i j + eps := by
  have := spatialVar_nonneg x i j
  linarith

theorem spatialMean_const {b c hh ww : ℕ} (v : Fin b → Fin c → ℚ)
    (hh0 : 0 < hh) (ww0 : 0 < ww) (i : Fin b) (j : Fin c) :
    spatialMean ((fun i' j' _ _ => v i' j') : Tensor4 b c hh ww) i j = v i j := by
  unfold spatialMean
  simp only [Finset.sum_const, Finset.card_univ, Fintype.card_fin, smul_eq_mul, nsmul_eq_mul]
  have hne : ((hh * ww : ℕ) : ℚ) ≠ 0 :=
    Nat.cast_ne_zero.mpr (Nat.mul_pos hh0 ww0).ne'
  push_cast
  push_cast at hne
  field_simp
  ring

/-! ### Helper: structure of a successful `space_timesteps` call -/

theorem space_ok_structure {N : ℕ} {counts : List ℕ} {S : Finset ℤ}
    (hS : space_timesteps N counts = .ok S) :
    (∀ t < counts.length,
        counts.getD t 0 ≤ sectionSize (N / counts.length) (N % counts.length) t)
    ∧ S = (specFrom (N / counts.length) (N % counts.length) counts 0 0).toFinset := by
  have hfit : ∀ t < counts.length,
      counts.getD t 0 ≤ sectionSize (N / counts.length) (N % counts.length) t := by
    by_contra hcon
    push_neg at hcon
    obtain ⟨t, ht, hbad⟩ := hcon
    obtain ⟨e, he⟩ := spaceSteps_error (N / counts.length) (N % counts.length) counts 0 0
      ⟨t, ht, by simpa using hbad⟩
    rw [space_timesteps, space_timesteps_list, he] at hS
    simp [Except.map] at hS
  have hok := spaceSteps_eq_ok (N / counts.length) (N % counts.length) counts 0 0
    (by intro t ht; simpa using hfit t ht)
  rw [space_timesteps, space_timesteps_list, hok] at hS
  simp only [Except.map] at hS
  refine ⟨hfit, ?_⟩
  injection hS with h
  exact h.symm

theorem space_ok_hyp {N : ℕ} {counts : List ℕ}
    (hpos : ∀ t < counts.length, 1 ≤ counts.getD t 0)
    (hfit : ∀ t < counts.length,
      counts.getD t 0 ≤ sectionSize (N / counts.length) (N % counts.length) t) :
    ∀ t < counts.length, 1 ≤ counts.getD t 0
      ∧ counts.getD t 0 ≤ sectionSize (N / counts.length) (N % counts.length) (0 + t) :=
  fun t ht => ⟨hpos t ht, by simpa using hfit t ht⟩

/-! ### The claims -/

/-- C3: for `N ≥ 1` and a list of positive section counts none of which
exceeds its section's size, `space_timesteps` partitions `0..N-1` into
`k = len(counts)` contiguous sections of size `N / k` with the first
`N % k` sections one element larger (the sizes sum to `N`), and inside a
section of size `S` with count `C` selects the start index alone when
`C = 1` and otherwise `start + round(j * (S-1)/(C-1))` for `j = 0..C-1`. -/
theorem C3_section_selection (N : ℕ) (counts : List ℕ) (hk : 1 ≤ counts.length)
    (_hpos : ∀ t < counts.length, 1 ≤ counts.getD t 0)
    (hfit : ∀ t < counts.length,
      counts.getD t 0 ≤ N / counts.length + (if t < N % counts.length then 1 else 0)) :
    space_timesteps N counts = .ok (specSelect N counts).toFinset
    ∧ (∑ t ∈ Finset.range counts.length,
        (N / counts.length + if t < N % counts.length then 1 else 0)) = N := by
  have hfit' : ∀ t < counts.length,
      counts.getD t 0 ≤ sectionSize (N / counts.length) (N % counts.length) (0 + t) := by
    intro t ht
    simpa [sectionSize] using hfit t ht
  constructor
  · rw [space_timesteps, space_timesteps_list,
      spaceSteps_eq_ok (N / counts.length) (N % counts.length) counts 0 0 hfit']
    simp only [Except.map]
    congr 1
    rw [specFrom_eq_flatMap, specSelect]
    congr 1
    apply List.flatMap_congr
    intro t _
    rw [specSectionSel_eq]
    have h1 : 0 + totalSize (N / counts.length) (N % counts.length) 0 t
        = specStart N counts.length t := by
      rw [Nat.zero_add, totalSize_from_zero, specStart]
    have h2 : sectionSize (N / counts.length) (N % counts.length) (0 + t)
        = N / counts.length + (if t < N % counts.length then 1 else 0) := by
      simp [sectionSize]
    rw [h1, h2]
  · have hsum : (∑ t ∈ Finset.range counts.length,
        (N / counts.length + if t < N % counts.length then 1 else 0))
        = totalSize (N / counts.length) (N % counts.length) 0 counts.length := by
      unfold totalSize
      apply Finset.sum_congr rfl
      intro t _
      simp [sectionSize]
    rw [hsum, totalSize_all N counts.length hk]

/-- C2: on inputs that `space_timesteps` accepts, the rounded positions
never collide (the working list is duplicate-free), so the returned set
has exactly `target_counts[i]` elements inside section `i` and
`sum(target_counts)` elements in total. -/
theorem C2_exact_counts (N : ℕ) (counts : List ℕ) (S : Finset ℤ)
    (_hk : 1 ≤ counts.length)
    (hpos : ∀ t < counts.length, 1 ≤ counts.getD t 0)
    (hS : space_timesteps N counts = .ok S) :
    S.card = counts.sum
    ∧ ∀ t < counts.length,
        (S.filter fun e =>
            ((t * (N / counts.length) + min t (N % counts.length) : ℕ) : ℤ) ≤ e ∧
            e < ((t * (N / counts.length) + min t (N % counts.length) : ℕ) : ℤ)
              + ((N / counts.length + if t < N % counts.length then 1 else 0 : ℕ) : ℤ)).card
          = counts.getD t 0 := by
  obtain ⟨hfit, hSeq⟩ := space_ok_structure hS
  have hyp := space_ok_hyp hpos hfit
  have hpw := specFrom_pairwise (N / counts.length) (N % counts.length) counts 0 0 hyp
  have hnd : (specFrom (N / counts.length) (N % counts.length) counts 0 0).Nodup :=
    hpw.imp (fun hlt => ne_of_lt hlt)
  constructor
  · rw [hSeq, List.toFinset_card_of_nodup hnd, specFrom_length]
  · intro t ht
    have hflt := specFrom_filter (N / counts.length) (N % counts.length) counts 0 0 hyp t ht
    have hstart : 0 + totalSize (N / counts.length) (N % counts.length) 0 t
        = t * (N / counts.length) + min t (N % counts.length) := by
      rw [Nat.zero_add, totalSize_from_zero]
    have hsize : sectionSize (N / counts.length) (N % counts.length) (0 + t)
        = N / counts.length + (if t < N % counts.length then 1 else 0) := by
      simp [sectionSize]
    rw [hstart, hsize] at hflt
    have key : (S.filter fun e =>
          ((t * (N / counts.length) + min t (N % counts.length) : ℕ) : ℤ) ≤ e ∧
          e < ((t * (N / counts.length) + min t (N % counts.length) : ℕ) : ℤ)
            + ((N / counts.length + if t < N % counts.length then 1 else 0 : ℕ) : ℤ))
        = ((specFrom (N / counts.length) (N % counts.length) counts 0 0).filter fun e =>
            decide (((t * (N / counts.length) + min t (N % counts.length) : ℕ) : ℤ) ≤ e) &&
              decide (e < ((t * (N / counts.length) + min t (N % counts.length) : ℕ) : ℤ)
                + sectionSize (N / counts.length) (N % counts.length) (0 + t))).toFinset := by
      rw [List.toFinset_filter, hSeq]
      apply Finset.filter_congr
      intro e _
      simp only [Bool.and_eq_true, decide_eq_true_eq, hsize]
    rw [key, List.toFinset_card_of_nodup (hnd.filter _)]
    rw [← hflt]
    congr 2
    rw [hsize]

/-- C7: for positive section counts, `space_timesteps` raises a
`ValueError` if and only if some section's target count exceeds that
section's size, and on success the set carries the full
`sum(target_counts)` selected steps (no silent clamping). -/
theorem C7_config_error (N : ℕ) (counts : List ℕ)
    (_hk : 1 ≤ counts.length)
    (hpos : ∀ t < counts.length, 1 ≤ counts.getD t 0) :
    ((∃ e, space_timesteps N counts = .error e)
      ↔ ∃ t < counts.length,
          N / counts.length + (if t < N % counts.length then 1 else 0) < counts.getD t 0)
    ∧ ∀ S, space_timesteps N counts = .ok S → S.card = counts.sum := by
  constructor
  · constructor
    · rintro ⟨e, he⟩
      by_contra hcon
      push_neg at hcon
      have hfit' : ∀ t < counts.length,
          counts.getD t 0 ≤ sectionSize (N / counts.length) (N % counts.length) (0 + t) := by
        intro t ht
        simpa [sectionSize] using hcon t ht
      rw [space_timesteps, space_timesteps_list,
        spaceSteps_eq_ok (N / counts.length) (N % counts.length) counts 0 0 hfit'] at he
      simp [Except.map] at he
    · rintro ⟨t, ht, hbad⟩
      obtain ⟨e, he⟩ := spaceSteps_error (N / counts.length) (N % counts.length) counts 0 0
        ⟨t, ht, by simpa [sectionSize] using hbad⟩
      refine ⟨e, ?_⟩
      rw [space_timesteps, space_timesteps_list, he]
      rfl
  · intro S hS
    obtain ⟨hfit, hSeq⟩ := space_ok_structure hS
    have hyp := space_ok_hyp hpos hfit
    have hnd : (specFrom (N / counts.length) (N % counts.length) counts 0 0).Nodup :=
      (specFrom_pairwise (N / counts.length) (N % counts.length) counts 0 0 hyp).imp
        (fun hlt => ne_of_lt hlt)
    rw [hSeq, List.toFinset_card_of_nodup hnd, specFrom_length]

/-- C9: every index a successful `space_timesteps` call returns lies in
`0 ≤ index ≤ N - 1`. -/
theorem C9_index_bounds (N : ℕ) (counts : List ℕ) (S : Finset ℤ) (hk : 1 ≤ counts.length)
    (hpos : ∀ t < counts.length, 1 ≤ counts.getD t 0)
    (hS : space_timesteps N counts = .ok S) :
    ∀ e ∈ S, 0 ≤ e ∧ e ≤ (N : ℤ) - 1 := by
  obtain ⟨hfit, hSeq⟩ := space_ok_structure hS
  intro e he
  rw [hSeq, List.mem_toFinset] at he
  have hb := specFrom_bounds (N / counts.length) (N % counts.length) counts 0 0
    (space_ok_hyp hpos hfit) e he
  rw [totalSize_all N counts.length hk] at hb
  push_cast at hb
  obtain ⟨hb1, hb2⟩ := hb
  exact ⟨hb1, by linarith⟩

/-- C1: for a strictly decreasing schedule `alphas_cumprod` with values in
`(0, 1]` and a selected index set produced by `space_timesteps`, the
respacing loop of `main` satisfies: for every `k`, the product of
`(1 - new_betas[j])` over `j ≤ k` equals
`alphas_cumprod[timestep_map[k]]` — each coefficient is
`1 - alpha_cumprod[i] / alpha_cumprod[previously selected]` with `1.0`
before the first selected index, so the products telescope. -/
theorem C1_cumulative_retention (N : ℕ) (counts : List ℕ) (S : Finset ℤ) (alphas : List ℚ)
    (_hS : space_timesteps N counts = .ok S)
    (_hlen : alphas.length = N)
    (hmem : ∀ a ∈ alphas, 0 < a ∧ a ≤ 1)
    (_hdec : alphas.Chain' (fun x y => y < x)) :
    ∀ k < (timestep_map alphas fun i => decide ((i : ℤ) ∈ S)).length,
      (((new_betas alphas fun i => decide ((i : ℤ) ∈ S)).take (k + 1)).map
          (fun bb => 1 - bb)).prod
        = alphas.getD ((timestep_map alphas fun i => decide ((i : ℤ) ∈ S)).getD k 0) 0 := by
  intro k hk
  have hne : ∀ a ∈ alphas, a ≠ 0 := fun a ha => (hmem a ha).1.ne'
  have h := respaceBetas_prod (fun i => decide ((i : ℤ) ∈ S)) alphas 0 1 hne one_ne_zero k hk
  rw [one_mul, Nat.sub_zero] at h
  exact h

/-- C8: `target_counts = [N]` selects every original index `0..N-1`, and
the reconstructed coefficients reproduce the original per-step
transitions: the coefficient at index `i` is
`1 - alphas_cumprod[i] / alphas_cumprod[i-1]` (with `alphas_cumprod[-1]`
taken as `1`). -/
theorem C8_single_section_identity (N : ℕ) (_hN : 1 ≤ N) (alphas : List ℚ)
    (hlen : alphas.length = N) :
    space_timesteps N [N] = .ok ((List.range N).map (fun t : ℕ => (t : ℤ))).toFinset
    ∧ ∀ i < N,
        (new_betas alphas fun t =>
            decide ((t : ℤ) ∈ ((List.range N).map (fun t : ℕ => (t : ℤ))).toFinset)).getD i 0
          = 1 - alphas.getD i 0 / (if i = 0 then 1 else alphas.getD (i - 1) 0) := by
  have hfit' : ∀ t < ([N] : List ℕ).length,
      ([N] : List ℕ).getD t 0 ≤ sectionSize (N / ([N] : List ℕ).length)
        (N % ([N] : List ℕ).length) (0 + t) := by
    intro t ht
    simp only [List.length_cons, List.length_nil] at ht
    interval_cases t
    simp [sectionSize, Nat.mod_one]
  constructor
  · rw [space_timesteps, space_timesteps_list,
      spaceSteps_eq_ok (N / ([N] : List ℕ).length) (N % ([N] : List ℕ).length) [N] 0 0 hfit']
    simp only [Except.map]
    congr 1
    rw [specFrom, specFrom, List.append_nil]
    congr 1
    rw [sectionSel]
    have hsize : sectionSize (N / ([N] : List ℕ).length) (N % ([N] : List ℕ).length) 0 = N := by
      simp [sectionSize, Nat.mod_one]
    rw [hsize, fracStride_self]
    apply List.map_congr_left
    intro j _
    rw [mul_one, pyRound_natCast]
    push_cast
    ring
  · intro i hi
    have hall : ∀ j, 0 ≤ j → j < 0 + alphas.length →
        (fun t => decide ((t : ℤ)
          ∈ ((List.range N).map (fun t : ℕ => (t : ℤ))).toFinset)) j = true := by
      intro j _ hj
      rw [Nat.zero_add, hlen] at hj
      simp only [decide_eq_true_eq, List.mem_toFinset, List.mem_map, List.mem_range]
      exact ⟨j, hj, rfl⟩
    have h := (respaceBetas_all
      (fun t => decide ((t : ℤ) ∈ ((List.range N).map (fun t : ℕ => (t : ℤ))).toFinset))
      alphas 0 1 hall).2 i (by omega)
    exact h

/-- C6 (counterexample): the claim says a `ValueError` is raised only when
no stride up to `N` yields exactly the desired count.  At
`num_timesteps = 2`, `desired = 1`, the stride `s = 2 = N` yields
`range(0, 2, 2) = [0]` with exactly one element, yet the code raises,
because the loop tries only strides `1 .. N-1`. -/
theorem C6_counterexample :
    (∃ e, ddim_timesteps 2 1 = .error e)
    ∧ pyRangeLen 2 1 = 2 ∧ pyRangeLen 2 2 = 1 ∧ (pyRange 2 2).toFinset = {0} := by
  refine ⟨⟨"cannot create steps with an integer stride", ?_⟩, rfl, rfl, rfl⟩
  rfl

/-- C6 (amended): whenever some stride in `1 .. num_timesteps - 1` yields
exactly `desired` elements, the `"ddimN"` branch succeeds and returns the
arithmetic progression `0, s, 2s, …` below `num_timesteps` for the
smallest such stride `s`; it raises a `ValueError` when no stride in that
range (strictly below `num_timesteps`) works; and every successful result
has exactly that smallest-stride form. -/
theorem C6_fixed_stride (N d : ℕ) :
    ((∃ s, 1 ≤ s ∧ s < N ∧ pyRangeLen N s = d) →
      ∃ s, 1 ≤ s ∧ s < N ∧ pyRangeLen N s = d
        ∧ (∀ r, 1 ≤ r → r < s → pyRangeLen N r ≠ d)
        ∧ ddim_timesteps N d = .ok (pyRange N s).toFinset
        ∧ ∀ m : ℕ, m ∈ (pyRange N s).toFinset ↔ ∃ j, m = j * s ∧ m < N)
    ∧ ((∀ s, 1 ≤ s → s < N → pyRangeLen N s ≠ d) → ∃ e, ddim_timesteps N d = .error e)
    ∧ ∀ S, ddim_timesteps N d = .ok S →
        ∃ s, 1 ≤ s ∧ s < N ∧ pyRangeLen N s = d
          ∧ (∀ r, 1 ≤ r → r < s → pyRangeLen N r ≠ d)
          ∧ S = (pyRange N s).toFinset := by
  refine ⟨?_, ?_, ?_⟩
  · rintro ⟨s0, hs1, hs2, hs3⟩
    have hsome : ((List.range' 1 (N - 1)).find? (fun r => pyRangeLen N r == d)).isSome := by
      rw [List.find?_isSome]
      refine ⟨s0, ?_, by simpa using hs3⟩
      rw [List.mem_range']
      exact ⟨s0 - 1, by omega, by omega⟩
    obtain ⟨s, hf⟩ := Option.isSome_iff_exists.mp hsome
    obtain ⟨h1, h2, h3, h4, h5⟩ := ddim_find_some hf
    refine ⟨s, h1, h2, h3, h4, h5, ?_⟩
    intro m
    rw [List.mem_toFinset]
    exact mem_pyRange h1
  · intro hnone
    rw [ddim_timesteps]
    have hf : (List.range' 1 (N - 1)).find? (fun s => pyRangeLen N s == d) = none := by
      rw [List.find?_eq_none]
      intro s hs
      rw [List.mem_range'] at hs
      obtain ⟨u, hu, rfl⟩ := hs
      simpa using hnone (1 + 1 * u) (by omega) (by omega)
    rw [hf]
    exact ⟨_, rfl⟩
  · intro S hS
    cases hf : (List.range' 1 (N - 1)).find? (fun r => pyRangeLen N r == d) with
    | none =>
      rw [ddim_timesteps, hf] at hS
      exact absurd hS (by simp)
    | some s =>
      obtain ⟨h1, h2, h3, h4, h5⟩ := ddim_find_some hf
      rw [h5] at hS
      injection hS with h
      exact ⟨s, h1, h2, h3, h4, h.symm⟩

/-- C4: for images with at least two spatial elements (where the
Bessel-corrected variance the code computes is well-defined), correcting
an image against itself returns it unchanged, and correcting a spatially
constant image against any reference yields the constant image of the
reference's per-channel mean `μ`. -/
theorem C4_round_trip {b c hh ww : ℕ} (sq : ℚ → ℚ)
    (hsq : ∀ q, 0 < q → 0 < sq q) (hhw : 2 ≤ hh * ww) :
    (∀ x : Tensor4 b c hh ww, adaptive_instance_normalization sq x x = x)
    ∧ ∀ (v : Fin b → Fin c → ℚ) (style : Tensor4 b c hh ww),
        adaptive_instance_normalization sq
            ((fun i j _ _ => v i j) : Tensor4 b c hh ww) style
          = fun i j _ _ => spatialMean style i j := by
  have hh0 : 0 < hh := by
    rcases Nat.eq_zero_or_pos hh with h0 | h0
    · subst h0; simp at hhw
    · exact h0
  have ww0 : 0 < ww := by
    rcases Nat.eq_zero_or_pos ww with h0 | h0
    · subst h0; simp at hhw
    · exact h0
  constructor
  · intro x
    funext i j p q
    unfold adaptive_instance_normalization calc_mean_std
    simp only
    have hpos : 0 < spatialVar x i j + 1/100000 :=
      spatialVar_add_eps_pos x i j (by norm_num)
    have hs : sq (spatialVar x i j + 1/100000) ≠ 0 := (hsq _ hpos).ne'
    rw [div_mul_cancel₀ _ hs]
    ring
  · intro v style
    funext i j p q
    unfold adaptive_instance_normalization calc_mean_std
    simp only
    rw [spatialMean_const v hh0 ww0 i j]
    rw [sub_self, zero_div, zero_mul, zero_add]

/-- C5: the color corrector computes per-channel mean and standard
deviation over the spatial dimensions (adding `eps = 1e-5` to the variance
before the square root) and returns exactly
`(generated - mean_gen)/std_gen * std_ref + mean_ref`; the variance plus
epsilon is strictly positive, hence (the square root being positive on
positive inputs) no division by zero occurs. -/
theorem C5_formula {b c hh ww : ℕ} (sq : ℚ → ℚ) (hsq : ∀ q, 0 < q → 0 < sq q)
    (_hhw : 2 ≤ hh * ww) (g r : Tensor4 b c hh ww)
    (i : Fin b) (j : Fin c) (p : Fin hh) (q : Fin ww) :
    adaptive_instance_normalization sq g r i j p q
      = (g i j p q - (∑ p' : Fin hh, ∑ q' : Fin ww, g i j p' q') / ((hh * ww : ℕ) : ℚ))
          / sq ((∑ p' : Fin hh, ∑ q' : Fin ww,
              (g i j p' q'
                - (∑ p'' : Fin hh, ∑ q'' : Fin ww, g i j p'' q'') / ((hh * ww : ℕ) : ℚ)) ^ 2)
              / (((hh * ww : ℕ) : ℚ) - 1) + 1/100000)
          * sq ((∑ p' : Fin hh, ∑ q' : Fin ww,
              (r i j p' q'
                - (∑ p'' : Fin hh, ∑ q'' : Fin ww, r i j p'' q'') / ((hh * ww : ℕ) : ℚ)) ^ 2)
              / (((hh * ww : ℕ) : ℚ) - 1) + 1/100000)
          + (∑ p' : Fin hh, ∑ q' : Fin ww, r i j p' q') / ((hh * ww : ℕ) : ℚ)
    ∧ 0 < (∑ p' : Fin hh, ∑ q' : Fin ww,
          (g i j p' q'
            - (∑ p'' : Fin hh, ∑ q'' : Fin ww, g i j p'' q'') / ((hh * ww : ℕ) : ℚ)) ^ 2)
          / (((hh * ww : ℕ) : ℚ) - 1) + 1/100000
    ∧ 0 < sq ((∑ p' : Fin hh, ∑ q' : Fin ww,
          (g i j p' q'
            - (∑ p'' : Fin hh, ∑ q'' : Fin ww, g i j p'' q'') / ((hh * ww : ℕ) : ℚ)) ^ 2)
          / (((hh * ww : ℕ) : ℚ) - 1) + 1/100000) := by
  have hpos : 0 < spatialVar g i j + 1/100000 :=
    spatialVar_add_eps_pos g i j (by norm_num)
  exact ⟨rfl, hpos, hsq _ hpos⟩

/-- C10: `adaptive_instance_normalization` accepts style and content
tensors whose spatial dimensions differ (only batch and channel must
agree), returns a tensor of the content's shape, and depends on the style
only through its per-channel spatial mean and variance. -/
theorem C10_style_stats_only {b c hh ww h1 w1 h2 w2 : ℕ} (sq : ℚ → ℚ)
    (content : Tensor4 b c hh ww)
    (s1 : Tensor4 b c h1 w1) (s2 : Tensor4 b c h2 w2)
    (hm : ∀ i j, spatialMean s1 i j = spatialMean s2 i j)
    (hv : ∀ i j, spatialVar s1 i j = spatialVar s2 i j) :
    adaptive_instance_normalization sq content s1
      = adaptive_instance_normalization sq content s2 := by
  funext i j p q
  unfold adaptive_instance_normalization calc_mean_std
  simp only
  rw [hm i j, hv i j]

/-! ### Witnesses -/

theorem C1_witness :
    (((new_betas [9/10, 8/10, 7/10, 6/10]
          fun i => decide ((i : ℤ) ∈ ({0, 3} : Finset ℤ))).take (0 + 1)).map
        (fun bb => 1 - bb)).prod
      = [9/10, 8/10, 7/10, 6/10].getD
          ((timestep_map [9/10, 8/10, 7/10, 6/10]
              fun i => decide ((i : ℤ) ∈ ({0, 3} : Finset ℤ))).getD 0 0) 0 :=
  C1_cumulative_retention 4 [2] {0, 3} [9/10, 8/10, 7/10, 6/10]
    (by norm_num [space_timesteps, space_timesteps_list, spaceSteps, takenSteps,
      sectionSize, fracStride, pyRound, Except.map])
    (by norm_num)
    (by
      intro a ha
      simp only [List.mem_cons, List.not_mem_nil, or_false] at ha
      rcases ha with rfl | rfl | rfl | rfl <;> norm_num)
    (by norm_num [List.chain'_cons])
    0
    (by norm_num [timestep_map, respaceBetas])

theorem C2_witness :
    ({0, 2, 4, 5, 7, 9} : Finset ℤ).card = [3, 3].sum
    ∧ (({0, 2, 4, 5, 7, 9} : Finset ℤ).filter fun e =>
        ((0 * (10 / ([3, 3] : List ℕ).length)
            + min 0 (10 % ([3, 3] : List ℕ).length) : ℕ) : ℤ) ≤ e ∧
        e < ((0 * (10 / ([3, 3] : List ℕ).length)
            + min 0 (10 % ([3, 3] : List ℕ).length) : ℕ) : ℤ)
          + ((10 / ([3, 3] : List ℕ).length
            + if 0 < 10 % ([3, 3] : List ℕ).length then 1 else 0 : ℕ) : ℤ)).card
      = [3, 3].getD 0 0 := by
  have h := C2_exact_counts 10 [3, 3] {0, 2, 4, 5, 7, 9} (by norm_num)
    (by intro t ht; simp only [List.length_cons, List.length_nil] at ht; interval_cases t <;> norm_num)
    (by norm_num [space_timesteps, space_timesteps_list, spaceSteps, takenSteps,
      sectionSize, fracStride, pyRound, Except.map])
  exact ⟨h.1, h.2 0 (by norm_num)⟩

theorem C3_witness :
    space_timesteps 5 [2, 1] = .ok (specSelect 5 [2, 1]).toFinset
    ∧ (∑ t ∈ Finset.range ([2, 1] : List ℕ).length,
        (5 / ([2, 1] : List ℕ).length
          + if t < 5 % ([2, 1] : List ℕ).length then 1 else 0)) = 5 :=
  C3_section_selection 5 [2, 1] (by norm_num)
    (by intro t ht; simp only [List.length_cons, List.length_nil] at ht; interval_cases t <;> norm_num)
    (by intro t ht; simp only [List.length_cons, List.length_nil] at ht; interval_cases t <;> norm_num)

theorem C4_witness :
    (adaptive_instance_normalization (fun _ => 1)
        ((fun _ _ _ _ => 2) : Tensor4 1 1 1 2) ((fun _ _ _ _ => 2) : Tensor4 1 1 1 2)
      = ((fun _ _ _ _ => 2) : Tensor4 1 1 1 2))
    ∧ adaptive_instance_normalization (fun _ => 1)
        ((fun _ _ _ _ => (3 : ℚ)) : Tensor4 1 1 1 2) ((fun _ _ _ _ => 5) : Tensor4 1 1 1 2)
      = fun i j _ _ => spatialMean ((fun _ _ _ _ => 5) : Tensor4 1 1 1 2) i j := by
  have h := @C4_round_trip 1 1 1 2 (fun _ => (1 : ℚ)) (fun _ _ => by norm_num)
    (by norm_num)
  exact ⟨h.1 _, h.2 (fun _ _ => 3) _⟩

/-- Concrete tensors for the `C5` and `C10` witnesses. -/
def gW : Tensor4 1 1 1 2 := fun _ _ _ _ => 2

def rW : Tensor4 1 1 1 2 := fun _ _ _ _ => 4

theorem C5_witness :
    adaptive_instance_normalization (fun _ => 1) gW rW 0 0 0 0
      = (gW 0 0 0 0 - (∑ p' : Fin 1, ∑ q' : Fin 2, gW 0 0 p' q') / ((1 * 2 : ℕ) : ℚ))
          / (fun _ => (1 : ℚ)) ((∑ p' : Fin 1, ∑ q' : Fin 2,
              (gW 0 0 p' q'
                - (∑ p'' : Fin 1, ∑ q'' : Fin 2, gW 0 0 p'' q'') / ((1 * 2 : ℕ) : ℚ)) ^ 2)
              / (((1 * 2 : ℕ) : ℚ) - 1) + 1/100000)
          * (fun _ => (1 : ℚ)) ((∑ p' : Fin 1, ∑ q' : Fin 2,
              (rW 0 0 p' q'
                - (∑ p'' : Fin 1, ∑ q'' : Fin 2, rW 0 0 p'' q'') / ((1 * 2 : ℕ) : ℚ)) ^ 2)
              / (((1 * 2 : ℕ) : ℚ) - 1) + 1/100000)
          + (∑ p' : Fin 1, ∑ q' : Fin 2, rW 0 0 p' q') / ((1 * 2 : ℕ) : ℚ)
    ∧ 0 < (∑ p' : Fin 1, ∑ q' : Fin 2,
          (gW 0 0 p' q'
            - (∑ p'' : Fin 1, ∑ q'' : Fin 2, gW 0 0 p'' q'') / ((1 * 2 : ℕ) : ℚ)) ^ 2)
          / (((1 * 2 : ℕ) : ℚ) - 1) + 1/100000
    ∧ 0 < (fun _ => (1 : ℚ)) ((∑ p' : Fin 1, ∑ q' : Fin 2,
          (gW 0 0 p' q'
            - (∑ p'' : Fin 1, ∑ q'' : Fin 2, gW 0 0 p'' q'') / ((1 * 2 : ℕ) : ℚ)) ^ 2)
          / (((1 * 2 : ℕ) : ℚ) - 1) + 1/100000) :=
  C5_formula (fun _ => (1 : ℚ)) (fun _ _ => by norm_num) (by norm_num) gW rW 0 0 0 0

/-- A second style tensor with different spatial dimensions but the same
per-channel statistics as `s1W`. -/
def s1W : Tensor4 1 1 1 1 := fun _ _ _ _ => 5

def s2W : Tensor4 1 1 1 2 := fun _ _ _ _ => 5

def cW : Tensor4 1 1 2 2 := fun _ _ _ _ => 7

theorem C10_witness :
    adaptive_instance_normalization id cW s1W = adaptive_instance_normalization id cW s2W :=
  C10_style_stats_only id cW s1W s2W
    (by
      intro i j
      simp [spatialMean, s1W, s2W, Fin.sum_univ_two])
    (by
      intro i j
      simp [spatialVar, spatialMean, s1W, s2W, Fin.sum_univ_two])

theorem C6_witness :
    ∃ s, 1 ≤ s ∧ s < 10 ∧ pyRangeLen 10 s = 4
      ∧ (∀ r, 1 ≤ r → r < s → pyRangeLen 10 r ≠ 4)
      ∧ ddim_timesteps 10 4 = .ok (pyRange 10 s).toFinset
      ∧ ∀ m : ℕ, m ∈ (pyRange 10 s).toFinset ↔ ∃ j, m = j * s ∧ m < 10 :=
  (C6_fixed_stride 10 4).1 ⟨3, by norm_num, by norm_num, rfl⟩

theorem C7_witness : ∃ e, space_timesteps 4 [2, 3] = .error e :=
  (C7_config_error 4 [2, 3] (by norm_num)
    (by intro t ht; simp only [List.length_cons, List.length_nil] at ht; interval_cases t <;> norm_num)).1.mpr
    ⟨1, by norm_num, by norm_num⟩

theorem C8_witness :
    space_timesteps 2 [2] = .ok ((List.range 2).map (fun t : ℕ => (t : ℤ))).toFinset
    ∧ (new_betas [2/3, 1/3] fun t =>
          decide ((t : ℤ) ∈ ((List.range 2).map (fun t : ℕ => (t : ℤ))).toFinset)).getD 1 0
        = 1 - ([2/3, 1/3] : List ℚ).getD 1 0
            / (if 1 = 0 then 1 else ([2/3, 1/3] : List ℚ).getD (1 - 1) 0) := by
  have h := C8_single_section_identity 2 (by norm_num) [2/3, 1/3] rfl
  exact ⟨h.1, h.2 1 (by norm_num)⟩

theorem C9_witness : (0 : ℤ) ≤ 3 ∧ (3 : ℤ) ≤ ((5 : ℕ) : ℤ) - 1 :=
  C9_index_bounds 5 [2, 1] {0, 2, 3} (by norm_num)
    (by intro t ht; simp only [List.length_cons, List.length_nil] at ht; interval_cases t <;> norm_num)
    (by norm_num [space_timesteps, space_timesteps_list, spaceSteps, takenSteps,
      sectionSize, fracStride, pyRound, Except.map])
    3 (by decide)

end StableSR
